import Mathlib

set_option maxRecDepth 1000000

/-!
Verification development for the `simd-math-rs` library.

The library computes elementary transcendental functions on IEEE binary64
doubles, scalar and lane-parallel.  We embed the relevant source functions
shallowly over an exact, executable model of binary64 arithmetic: a double
is a NaN, a signed infinity, or a signed finite dyadic `± m * 2^e`, and
every arithmetic operation rounds its exact rational result to nearest,
ties to even, exactly as IEEE 754 prescribes.  All computations are pure
integer arithmetic so that concrete claims can be settled by `decide`;
the rational value semantics `valF` is used only in statements and proofs.
-/

/-! ## Bit lengths and the rounding kernel -/

/-- fuel-driven bit length: `blenF fuel n` is the number of binary digits
of `n` (0 for 0), provided `fuel ≥ n`. -/
def blenF : ℕ → ℕ → ℕ
  | 0, _ => 0
  | f+1, n => if n = 0 then 0 else blenF f (n / 2) + 1

/-- number of binary digits of `n`; `blen 0 = 0` and
`2^(blen n - 1) ≤ n < 2^(blen n)` for `n > 0`. -/
def blen (n : ℕ) : ℕ := blenF n n

/-- floor of the base-2 logarithm of the positive ratio `n / d`. -/
def ilogRatio (n d : ℕ) : ℤ :=
  let l0 : ℤ := (blen n : ℤ) - (blen d : ℤ)
  if d * 2 ^ l0.toNat ≤ n * 2 ^ (-l0).toNat then l0 else l0 - 1

/-- round the ratio `N / D` (with `D > 0`) to the nearest integer,
ties to even. -/
def rneRatio (N D : ℕ) : ℕ :=
  let k := N / D
  let r := N % D
  if 2 * r < D then k
  else if D < 2 * r then k + 1
  else if k % 2 = 0 then k else k + 1

/-- strip factors of two from `m` into the exponent (fuel-driven). -/
def stripF : ℕ → ℕ → ℤ → ℕ × ℤ
  | 0, m, e => (m, e)
  | f+1, m, e => if m % 2 = 0 ∧ m ≠ 0 then stripF f (m / 2) (e + 1) else (m, e)

/-- Model of an IEEE binary64 value: NaN, a signed infinity, or a signed
finite dyadic `± m * 2^e`.  Values produced by the model are canonical
(`m` odd, or `m = 0` with `e = 0`), so equality of computed values is
structural equality.  `fin false 0 0` is `+0.0`, `fin true 0 0` is `-0.0`. -/
inductive F64 where
  | nan : F64
  | inf : Bool → F64
  | fin : Bool → ℕ → ℤ → F64
deriving DecidableEq, Repr

/-- canonical finite value with sign `s` and magnitude `m * 2^e`. -/
def canonF (s : Bool) (m : ℕ) (e : ℤ) : F64 :=
  if m = 0 then .fin s 0 0
  else
    let p := stripF m m e
    .fin s p.1 p.2

/-- Round the positive ratio `n / d` (both positive) to binary64 with sign
`s`: round to nearest, ties to even, overflow to infinity, gradual
underflow at exponent `-1074`.  This is the single rounding primitive all
model operations go through. -/
def roundRatio (s : Bool) (n d : ℕ) : F64 :=
  let L := ilogRatio n d
  let e : ℤ := max (L - 52) (-1074)
  let m := rneRatio (n * 2 ^ (-e).toNat) (d * 2 ^ e.toNat)
  if 2 ^ (1024 + (-e).toNat) ≤ m * 2 ^ e.toNat then .inf s
  else canonF s m e

/-- round the exact signed dyadic `S * 2^E`; an exact zero becomes `+0`
unless the caller handles signs itself. -/
def roundSigned (S : ℤ) (E : ℤ) : F64 :=
  if S = 0 then .fin false 0 0
  else roundRatio (decide (S < 0)) (S.natAbs * 2 ^ E.toNat) (2 ^ (-E).toNat)

/-- rational value of a finite model double (junk on NaN/infinity); used
only in specifications and proofs, never in computations. -/
def valF (x : F64) : ℚ :=
  match x with
  | .fin b m e => (if b then (-1:ℚ) else 1) * m * 2 ^ e
  | _ => 0

/-! ## IEEE arithmetic operations -/

/-- IEEE negation: flips the sign bit. -/
def negF (x : F64) : F64 :=
  match x with
  | .nan => .nan
  | .inf b => .inf (!b)
  | .fin b m e => .fin (!b) m e

/-- the exact signed sum of two finite dyadics, as `(S, E)` with value
`S * 2^E`. -/
def exactAdd (a : Bool) (m1 : ℕ) (e1 : ℤ) (b : Bool) (m2 : ℕ) (e2 : ℤ) :
    ℤ × ℤ :=
  let E := min e1 e2
  let M1 : ℤ := (m1 : ℤ) * 2 ^ (e1 - E).toNat
  let M2 : ℤ := (m2 : ℤ) * 2 ^ (e2 - E).toNat
  ((if a then -M1 else M1) + (if b then -M2 else M2), E)

/-- IEEE addition (round to nearest even; an exact zero sum from
cancellation is `+0`, and `-0 + -0 = -0`). -/
def addF (x y : F64) : F64 :=
  match x, y with
  | .nan, _ => .nan
  | _, .nan => .nan
  | .inf a, .inf b => if a = b then .inf a else .nan
  | .inf a, .fin _ _ _ => .inf a
  | .fin _ _ _, .inf b => .inf b
  | .fin a m1 e1, .fin b m2 e2 =>
    let p := exactAdd a m1 e1 b m2 e2
    if p.1 = 0 then
      if m1 = 0 ∧ m2 = 0 then
        (if a ∧ b then .fin true 0 0 else .fin false 0 0)
      else .fin false 0 0
    else roundSigned p.1 p.2

/-- IEEE subtraction, `x - y = x + (-y)`. -/
def subF (x y : F64) : F64 := addF x (negF y)

/-- IEEE multiplication (sign is the XOR of the signs, `inf * 0 = NaN`). -/
def mulF (x y : F64) : F64 :=
  match x, y with
  | .nan, _ => .nan
  | _, .nan => .nan
  | .inf a, .inf b => .inf (a != b)
  | .inf a, .fin b m _ => if m = 0 then .nan else .inf (a != b)
  | .fin a m _, .inf b => if m = 0 then .nan else .inf (a != b)
  | .fin a m1 e1, .fin b m2 e2 =>
    if m1 * m2 = 0 then .fin (a != b) 0 0
    else roundRatio (a != b) (m1 * m2 * 2 ^ (e1 + e2).toNat)
      (2 ^ (-(e1 + e2)).toNat)

/-- IEEE division (`0/0 = inf/inf = NaN`, `x/0 = ±inf`, `x/inf = ±0`,
overflow to `±inf`, underflow to `±0`). -/
def divF (x y : F64) : F64 :=
  match x, y with
  | .nan, _ => .nan
  | _, .nan => .nan
  | .inf _, .inf _ => .nan
  | .inf a, .fin b _ _ => .inf (a != b)
  | .fin a _ _, .inf b => .fin (a != b) 0 0
  | .fin a m1 e1, .fin b m2 e2 =>
    if m2 = 0 then (if m1 = 0 then .nan else .inf (a != b))
    else if m1 = 0 then .fin (a != b) 0 0
    else roundRatio (a != b) (m1 * 2 ^ (e1 - e2).toNat)
      (m2 * 2 ^ (e2 - e1).toNat)

/-- IEEE fused multiply-add `fl(x*a + c)`: one rounding of the exact
product-sum.  Models Rust's `f64::mul_add`. -/
def fmaF (x a c : F64) : F64 :=
  match x, a, c with
  | .nan, _, _ => .nan
  | _, .nan, _ => .nan
  | _, _, .nan => .nan
  | .inf bx, .inf ba, c => addF (.inf (bx != ba)) c
  | .inf bx, .fin ba m _, c =>
    if m = 0 then .nan else addF (.inf (bx != ba)) c
  | .fin bx m _, .inf ba, c =>
    if m = 0 then .nan else addF (.inf (bx != ba)) c
  | .fin _ _ _, .fin _ _ _, .inf bc => .inf bc
  | .fin bx mx ex, .fin ba ma ea, .fin bc mc ec =>
    let p := exactAdd (bx != ba) (mx * ma) (ex + ea) bc mc ec
    if p.1 = 0 then
      if mx * ma = 0 ∧ mc = 0 then
        (if (bx != ba) ∧ bc then .fin true 0 0 else .fin false 0 0)
      else .fin false 0 0
    else roundSigned p.1 p.2

/-- IEEE absolute value: clears the sign bit. -/
def absF (x : F64) : F64 :=
  match x with
  | .nan => .nan
  | .inf _ => .inf false
  | .fin _ m e => .fin false m e

/-- `m.copysign(s)`: magnitude of `m` with the sign bit of `s`.  (Our model
NaN carries no sign bit; when `s` is NaN we take a positive sign — every
use below feeds the result into an operation with another NaN, which
swallows the choice.) -/
def copysignF (m s : F64) : F64 :=
  let sb : Bool := match s with
    | .nan => false
    | .inf b => b
    | .fin b _ _ => b
  match m with
  | .nan => .nan
  | .inf _ => .inf sb
  | .fin _ mm e => .fin sb mm e

/-- Rust `f64::signum`: `±1.0` by sign bit (so `signum(±0) = ±1`),
NaN on NaN. -/
def signumF (x : F64) : F64 :=
  match x with
  | .nan => .nan
  | .inf b => .fin b 1 0
  | .fin b _ _ => .fin b 1 0

/-- Rust `f64::recip`, `1/x` with one rounding. -/
def recipF (x : F64) : F64 := divF (.fin false 1 0) x

/-- magnitude comparison `m1 * 2^e1 > m2 * 2^e2` on nonnegative dyadics. -/
def magGt (m1 : ℕ) (e1 : ℤ) (m2 : ℕ) (e2 : ℤ) : Bool :=
  let E := min e1 e2
  decide (m2 * 2 ^ (e2 - E).toNat < m1 * 2 ^ (e1 - E).toNat)

/-- IEEE `x > y` (false whenever either operand is NaN; `-0 > +0` is false
since the zeros compare equal). -/
def gtF (x y : F64) : Bool :=
  match x, y with
  | .nan, _ => false
  | _, .nan => false
  | .inf a, .inf b => !a && b
  | .inf a, .fin _ _ _ => !a
  | .fin _ _ _, .inf b => b
  | .fin a m1 e1, .fin b m2 e2 =>
    match a, b with
    | false, false => magGt m1 e1 m2 e2
    | true, true => magGt m2 e2 m1 e1
    | false, true => !(decide (m1 = 0) && decide (m2 = 0))
    | true, false => false

/-- numeric test `x = 0.0` (true for both `+0` and `-0`). -/
def isZeroF (x : F64) : Bool :=
  match x with
  | .fin _ m _ => decide (m = 0)
  | _ => false

/-- IEEE numeric equality on non-NaN values (`+0 = -0`); false on NaN. -/
def eqNumF (x y : F64) : Bool :=
  match x, y with
  | .nan, _ => false
  | _, .nan => false
  | .inf a, .inf b => a = b
  | .inf _, .fin _ _ _ => false
  | .fin _ _ _, .inf _ => false
  | .fin a m1 e1, .fin b m2 e2 =>
    (decide (m1 = 0) && decide (m2 = 0)) ||
      (a = b && decide (m1 = m2) && decide (e1 = e2))

/-- IEEE `x ≥ y` (false whenever either operand is NaN). -/
def geF (x y : F64) : Bool := gtF x y || eqNumF x y

/-- Rust `f64::to_int_unchecked::<i32>`: truncate toward zero.  Its
contract requires the truncated value to be in `i32` range; outside that
domain (including NaN and infinities) the behavior is undefined, which the
model records as `none`. -/
def toIntUnchecked (x : F64) : Option ℤ :=
  match x with
  | .fin b m e =>
    let mag : ℕ := if 0 ≤ e then m * 2 ^ e.toNat else m / 2 ^ (-e).toNat
    let t : ℤ := if b then -(mag : ℤ) else (mag : ℤ)
    if -(2^31) ≤ t ∧ t ≤ 2^31 - 1 then some t else none
  | _ => none

/-- the `n as f64` cast.  Exact for every `i32` (all of which are
representable in binary64), which is the only way the source uses it. -/
def intToF (n : ℤ) : F64 := canonF (decide (n < 0)) n.natAbs 0

/-- a Rust decimal literal `m * 10^(-e)`: the decimal value rounded to the
nearest binary64, exactly as the Rust compiler parses float literals. -/
def dlit (m : ℤ) (e : ℕ) : F64 :=
  if m = 0 then .fin false 0 0
  else roundRatio (decide (m < 0)) m.natAbs (10 ^ e)

/-- the double `1.0`. -/
def oneF : F64 := .fin false 1 0

/-- the double `0.5`. -/
def halfF : F64 := .fin false 1 (-1)

/-- the double `2.0`. -/
def twoF : F64 := .fin false 1 1

/-- the double `-1.0`. -/
def negOneF : F64 := .fin true 1 0

/-- `std::f64::consts::PI`: the IEEE double nearest π,
`884279719003555 * 2^(-48)`. -/
def piF : F64 := .fin false 884279719003555 (-48)

/-- `PI / 2.0` as computed by the source (exact halving). -/
def piHalfF : F64 := divF piF twoF

/-- `PI / 4.0` as computed by the source (exact quartering). -/
def piQuarterF : F64 := divF piF (.fin false 1 2)

/-! ## Coefficient tables and constants (exact doubles of the source
decimal literals) -/

/-- the sine polynomial table of src/trig.rs (degree 15, pre-centered at
π/4 so one table serves sine and cosine via a phase shift). -/
def TAYLOR_COEFFS : List F64 := [
  dlit (-5407361331613617) 28,
  dlit (-8111041997420426) 27,
  dlit 11355458796388596 26,
  dlit 14762096435305176 25,
  dlit (-1771451572236621) 23,
  dlit (-1948596729460283) 22,
  dlit 1948596729460283 21,
  dlit 17537370565142548 21,
  dlit (-14029896452114038) 20,
  dlit (-9820927516479827) 19,
  dlit 5892556509887896 18,
  dlit 2946278254943948 17,
  dlit (-11785113019775792) 17,
  dlit (-3535533905932738) 16,
  dlit 7071067811865476 16,
  dlit 7071067811865476 16
]

/-- the ln(1+x) polynomial table of src/log.rs (18 coefficients, domain
`(2^(-1/4) - 1, 2^(1/4) - 1)`). -/
def TAYLOR_LN : List F64 := [
  dlit 5830012414910911 17,
  dlit (-724454848037986) 16,
  dlit 6745456264338053 17,
  dlit (-7071157326414279) 17,
  dlit 768621149324746 16,
  dlit (-8336128638736695) 17,
  dlit 9091112804841374 17,
  dlit (-9999937157336908) 17,
  dlit 1111110784241662 16,
  dlit (-12500000775209813) 17,
  dlit 14285714306426145 17,
  dlit (-1666666666256715) 16,
  dlit 2 1,
  dlit (-25) 2,
  dlit 3333333333333333 16,
  dlit (-5) 1,
  dlit 10 1,
  dlit (-7458340731200207) 170
]

/-- the atan polynomial table of src/invtrig.rs (domain `0 ≤ x ≤ 0.25`). -/
def TAYLOR_AT : List F64 := [
  dlit (-5935190303616799) 17,
  dlit 10193283675657623 17,
  dlit (-5670542509580847) 18,
  dlit (-9038859634762113) 17,
  dlit 6982378651457376 20,
  dlit 11108220495522635 17,
  dlit 4222287252074105 21,
  dlit (-14285747979512672) 17,
  dlit 14572412077765227 24,
  dlit 19999999973142432 17,
  dlit 0 1,
  dlit (-3333333333333333) 16,
  dlit 0 1,
  dlit 10 1,
  dlit 0 1
]

/-- the `LN2` constant of src/log.rs, `0.6931471805599453`. -/
def CLN2 : F64 := dlit 6931471805599453 16

/-- the `LNSQRT2` constant of src/log.rs, `0.34657359027997264`. -/
def CLNSQRT2 : F64 := dlit 34657359027997264 17

/-- the `LN2POW4TH` constant of src/log.rs, `0.17328679513998632`. -/
def CLN2POW4TH : F64 := dlit 17328679513998632 17

/-- the `SQRT2` constant of src/log.rs, `1.4142135623730951`. -/
def CSQRT2 : F64 := dlit 14142135623730951 16

/-- the `SQRT2_INV` constant of src/log.rs, `0.7071067811865476`. -/
def CSQRT2_INV : F64 := dlit 7071067811865476 16

/-- the `TWOPOW4TH` constant of src/log.rs, `1.189207115002721`. -/
def CTWOPOW4TH : F64 := dlit 1189207115002721 15

/-- the `TWOPOW4TH_INV` constant of src/log.rs, `0.8408964152537145`. -/
def CTWOPOW4TH_INV : F64 := dlit 8408964152537145 16

/-- the `TAN_4` constant of src/invtrig.rs, `0.24497866312686414`
(`atan(1/4)`). -/
def CTAN_4 : F64 := dlit 24497866312686414 17

/-- the `TAN_2` constant of src/invtrig.rs, `0.4636476090008061`
(`atan(1/2)`). -/
def CTAN_2 : F64 := dlit 4636476090008061 16

/-- the `TAN_1` constant of src/invtrig.rs, `0.7853981633974483`
(`atan(1) = π/4`). -/
def CTAN_1 : F64 := dlit 7853981633974483 16

/-! ## src/util.rs -/

/-- `periodic_clamp(x, a)` from src/util.rs (the identical scalar copy
also appears in src/lib.rs):
`let n = unsafe { (x / a + 0.5 * x.signum()).to_int_unchecked() };`
`(x - (n as f64) * a, n)`.
The unchecked conversion makes out-of-range quotients undefined behavior,
modelled as `none`. -/
def periodic_clamp (x a : F64) : Option (F64 × ℤ) :=
  match toIntUnchecked (addF (divF x a) (mulF halfF (signumF x))) with
  | none => none
  | some n => some (subF x (mulF (intToF n) a), n)

/-- sequence a list of options: `some` of the list of values iff every
entry is `some` (a lane-vector computation is defined iff every lane
is). -/
def seqO {α : Type} : List (Option α) → Option (List α)
  | [] => some []
  | none :: _ => none
  | some a :: rest =>
    match seqO rest with
    | none => none
    | some l => some (a :: l)

/-- `periodic_clamp_simd` from src/util.rs, modelled lane-wise (Rust
portable SIMD arithmetic is element-wise):
`let n = unsafe { (x / splat(a) + splat(0.5).copysign(x)).to_int_unchecked() };`
`(x - n.cast() * splat(a), n)`.
The only textual difference from the scalar form is `splat(0.5).copysign(x)`
in place of `0.5 * x.signum()`. -/
def periodic_clamp_simd (xs : List F64) (a : F64) :
    Option (List F64 × List ℤ) :=
  match seqO (xs.map (fun x =>
      toIntUnchecked (addF (divF x a) (copysignF halfF x)))) with
  | none => none
  | some ns =>
    some (List.zipWith (fun x n => subF x (mulF (intToF n) a)) xs ns, ns)

/-- the `i32::abs` the source applies to the exponent: wrapping at
`i32::MIN` (in release mode `(-2^31).abs()` is `-2^31` again; in debug
mode it panics). -/
def absWrap (n : ℤ) : ℤ := if n = -(2^31) then -(2^31) else |n|

/-- the squaring loop of `powi` (src/util.rs):
`while n != 0 { acc = if n & 1 != 0 { acc * x } else { acc }; x *= x; n >>= 1 }`.
Fuel-driven structural recursion; 64 units of fuel are never exhausted for
any `n` reachable from an `i32` (at most 32 halvings reach zero). -/
def powiLoop : ℕ → F64 → ℕ → F64 → F64
  | 0, _, _, acc => acc
  | f+1, x, n, acc =>
    if n = 0 then acc
    else powiLoop f (mulF x x) (n / 2) (if n % 2 = 1 then mulF acc x else acc)

/-- `powi(x, n)` from src/util.rs.  For `n = i32::MIN` the wrapped
absolute value is negative and the `>>= 1` arithmetic shift keeps it
negative forever, so the loop never terminates: modelled as `none`
(see `powiStep` for the loop-level statement). -/
def powi (x : F64) (n : ℤ) : Option F64 :=
  let x1 := if n < 0 then recipF x else x
  let m := absWrap n
  if m < 0 then none
  else some (powiLoop 64 x1 m.toNat oneF)

/-- one iteration of `powi`'s while loop on state `(x, n, acc)`, with the
exponent kept as an `i32` value: `n >>= 1` is a two's-complement
arithmetic shift, i.e. floor division by two (`Int.ediv`), and `n & 1` is
`n.emod 2`. -/
def powiStep (s : F64 × ℤ × F64) : F64 × ℤ × F64 :=
  (mulF s.1 s.1, s.2.1 / 2,
   if s.2.1 % 2 = 1 then mulF s.2.2 s.1 else s.2.2)

/-- the `i32 → u64` lane cast `n.abs().cast()` of `powi_simd`
(src/util.rs): an `as`-cast, i.e. sign extension, i.e. the value modulo
`2^64`. -/
def castU64 (n : ℤ) : ℕ := (Int.emod n (2^64)).toNat

/-- one iteration of `powi_simd`'s while loop on state `(x, n, acc)` of
lane vectors; the `u64` exponents shift logically (`n / 2`), and the
bit-test branch is a lane mask select. -/
def powiSimdStep (s : List F64 × List ℕ × List F64) :
    List F64 × List ℕ × List F64 :=
  (s.1.map (fun x => mulF x x),
   s.2.1.map (fun n => n / 2),
   List.zipWith (fun p n => if n % 2 = 1 then mulF p.1 p.2 else p.1)
     (s.2.2.zip s.1) s.2.1)

/-- `polyval(cs, x)` from src/util.rs: Horner fold
`acc = cs[0]; for c in cs[1..] { acc = x.mul_add(acc, c) }`. -/
def polyval (cs : List F64) (x : F64) : F64 :=
  match cs with
  | [] => .fin false 0 0
  | c :: rest => rest.foldl (fun acc c2 => fmaF x acc c2) c

/-- `polyval_simd(cs, x)` from src/util.rs: the same Horner fold with a
lane vector accumulator, `acc = x.mul_add(acc, splat(c))` per step. -/
def polyval_simd (cs : List F64) (xs : List F64) : List F64 :=
  match cs with
  | [] => xs.map (fun _ => .fin false 0 0)
  | c :: rest =>
    rest.foldl
      (fun accs c2 => List.zipWith (fun x acc => fmaF x acc c2) xs accs)
      (xs.map (fun _ => c))

/-! ## src/trig.rs -/

/-- `sin_shift(x)` from src/trig.rs: clamp to period π/2, negate `u` when
bit 0 of `n` is set, evaluate the shifted-sine polynomial, negate the
result when bit 1 of `n` is set.  (On `i32` values, `n & 1 ≠ 0` is
`n.emod 2 = 1` and `n & 2 ≠ 0` is `n.emod 4 ≥ 2`.) -/
def sin_shift (x : F64) : Option F64 :=
  match periodic_clamp x piHalfF with
  | none => none
  | some (u, n) =>
    let u2 := if Int.emod n 2 = 0 then u else negF u
    let tl := polyval TAYLOR_COEFFS u2
    some (if Int.emod n 4 < 2 then tl else negF tl)

/-- `sin(x) = sin_shift(x - PI/4)` from src/trig.rs. -/
def sin (x : F64) : Option F64 := sin_shift (subF x piQuarterF)

/-- `cos(x) = sin_shift(x + PI/4)` from src/trig.rs. -/
def cos (x : F64) : Option F64 := sin_shift (addF x piQuarterF)

/-- `tan(x) = sin(x) / cos(x)` from src/trig.rs: an ordinary IEEE
division with no special-case guard for a zero cosine. -/
def tan (x : F64) : Option F64 :=
  match sin x, cos x with
  | some s, some c => some (divF s c)
  | _, _ => none

/-- `sin_shift_simd` from src/trig.rs: the lane-parallel restatement with
mask selects `(n & 1) == 0 ? u : -u` and `(n & 2) == 0 ? tl : -tl`
(the `i64` cast of `n` is value-preserving). -/
def sin_shift_simd (xs : List F64) : Option (List F64) :=
  match periodic_clamp_simd xs piHalfF with
  | none => none
  | some (us, ns) =>
    let us2 := List.zipWith
      (fun u n => if Int.emod n 2 = 0 then u else negF u) us ns
    let tls := polyval_simd TAYLOR_COEFFS us2
    some (List.zipWith
      (fun tl n => if Int.emod n 4 < 2 then tl else negF tl) tls ns)

/-- `sin_simd(x) = sin_shift_simd(x - splat(PI/4))` from src/trig.rs. -/
def sin_simd (xs : List F64) : Option (List F64) :=
  sin_shift_simd (xs.map (fun x => subF x piQuarterF))

/-! ## src/log.rs -/

/-- the biased-exponent field (bits 52–62) of the binary64 encoding of
`x`: 2047 for NaN and infinities, 0 for zeros and subnormals, otherwise
`⌊log2 |x|⌋ + 1023`.  This is the semantic content of `fake_log2`'s
transmute-mask-shift on the bit pattern. -/
def expField (x : F64) : ℤ :=
  match x with
  | .nan => 2047
  | .inf _ => 2047
  | .fin _ m e =>
    if m = 0 then 0
    else
      let L := (blen m : ℤ) - 1 + e
      if L < -1022 then 0 else L + 1023

/-- `fake_log2(x)` from src/log.rs: extract the exponent field and
subtract the bias 1023.  (The source computes `(exp2 - 1023) as i32` on a
`u64`; in release mode the wrapping subtraction and truncating cast yield
exactly `field - 1023` for every possible field value `0..2047`.) -/
def fake_log2 (x : F64) : ℤ := expField x - 1023

/-- `2f64.powi(k)`: an exact power of two for `-1074 ≤ k ≤ 1023`
(exponentiation by squaring on the exact base 2 is exact in this range),
overflowing to infinity above and underflowing to zero below. -/
def two_powi (k : ℤ) : F64 :=
  if 1023 < k then .inf false
  else if k < -1074 then .fin false 0 0
  else .fin false 1 k

/-- the adjusted coarse exponent of `ln` (src/log.rs):
`let n = if n < 0 { n + 1 } else { n };`. -/
def lnAdjN (x : F64) : ℤ :=
  let n := fake_log2 x
  if n < 0 then n + 1 else n

/-- the scaled mantissa of `ln` (src/log.rs): `let x = x * 2f64.powi(-n);`
with the adjusted `n`. -/
def lnMant (x : F64) : F64 := mulF x (two_powi (-(lnAdjN x)))

/-- `ln(x)` from src/log.rs: coarse exponent from the bit pattern, two
conditional `√2` / `2^(1/4)` foldings, polynomial on `x - 1`, linear
reconstruction. -/
def ln (x : F64) : F64 :=
  let n := lnAdjN x
  let x1 := lnMant x
  let nsq2 := if gtF x1 oneF then oneF else negOneF
  let fsq2 := if gtF x1 oneF then CSQRT2_INV else CSQRT2
  let x2 := mulF x1 fsq2
  let n2p4 := if gtF x2 oneF then oneF else negOneF
  let f2p4 := if gtF x2 oneF then CTWOPOW4TH_INV else CTWOPOW4TH
  let x3 := mulF x2 f2p4
  addF
    (addF
      (addF (polyval TAYLOR_LN (subF x3 oneF)) (mulF (intToF n) CLN2))
      (mulF nsq2 CLNSQRT2))
    (mulF n2p4 CLN2POW4TH)

/-! ## src/invtrig.rs -/

/-- the half-angle substitution `s(x, n) = (x - 2^(-n)) / (1 + 2^(-n) * x)`
of `atan` (src/invtrig.rs). -/
def atanSub (x : F64) (n : ℤ) : F64 :=
  let f2 := two_powi (-n)
  divF (subF x f2) (addF oneF (mulF f2 x))

/-- `atan(x)` from src/invtrig.rs: three half-angle foldings of `|x|`
into `[0, 0.25]`, polynomial, then reconstruction by sign-copies and the
`atan(2^(-k))` constants. -/
def atan (x : F64) : F64 :=
  let s0 := x
  let x0 := absF s0
  let s1 := atanSub x0 0
  let x1 := absF s1
  let s2 := atanSub x1 1
  let x2 := absF s2
  let s3 := atanSub x2 2
  let x3 := absF s3
  let atx3 := polyval TAYLOR_AT x3
  let p3 := addF (copysignF atx3 s3) CTAN_4
  let p2 := addF (copysignF p3 s2) CTAN_2
  let p1 := addF (copysignF p2 s1) CTAN_1
  copysignF p1 s0

/-- Modelled from the spec: the scalar `atan2` body is not present under
src/ — src/simdfloatmath_trait/f64.rs only forwards to an `atan2_simd`
whose definition is also absent — so its quadrant logic is taken from
§4.7 of the spec: for `x ≠ 0` compute `atan(y/x)`, return it unchanged
when `x > 0`, otherwise add π when `y` is non-negative and subtract π
when `y` is negative; for `x = 0` return `+π/2` when `y > 0`, `-π/2` when
`y < 0`, and NaN when `y = 0`. -/
def atan2 (y x : F64) : F64 :=
  if isZeroF x then
    (if gtF y (.fin false 0 0) then piHalfF
     else if gtF (.fin false 0 0) y then negF piHalfF
     else .nan)
  else
    let r := atan (divF y x)
    if gtF x (.fin false 0 0) then r
    else if geF y (.fin false 0 0) then addF r piF else subF r piF

/-! ## Exact-arithmetic idealizations (the algorithms with real-number
arithmetic in place of rounded doubles) -/

/-- the sign factor `x.signum()` in exact arithmetic (`+1` for `x ≥ 0`,
matching Rust's `signum(+0) = 1`). -/
def sgnQ (x : ℚ) : ℚ := if x < 0 then -1 else 1

/-- truncation toward zero (the semantics of `to_int_unchecked`). -/
def truncQ (q : ℚ) : ℤ := if q < 0 then -⌊-q⌋ else ⌊q⌋

/-- rounding to the nearest integer with ties away from zero, the
spec's description of the quotient choice (`n = round(x/a)` with ties
resolved away from zero in the direction of `x`'s sign). -/
def roundHalfAway (q : ℚ) : ℤ := if q < 0 then -⌊-q + 1/2⌋ else ⌊q + 1/2⌋

/-- `periodic_clamp` in exact rational arithmetic: the idealization of
src/util.rs `periodic_clamp` with no rounding and an unbounded integer
quotient. -/
def periodic_clampQ (x a : ℚ) : ℚ × ℤ :=
  let n := truncQ (x / a + 1/2 * sgnQ x)
  (x - (n : ℚ) * a, n)

/-- the `powi` squaring loop in exact rational arithmetic (fuel-driven as
in `powiLoop`). -/
def powiLoopQ : ℕ → ℚ → ℕ → ℚ → ℚ
  | 0, _, _, acc => acc
  | f+1, x, n, acc =>
    if n = 0 then acc
    else powiLoopQ f (x * x) (n / 2) (if n % 2 = 1 then acc * x else acc)

/-- `powi` in exact rational arithmetic: the idealization of src/util.rs
`powi` with exact products and reciprocal and an unbounded exponent. -/
def powiQ (x : ℚ) (n : ℤ) : ℚ :=
  powiLoopQ 64 (if n < 0 then x⁻¹ else x) n.natAbs 1

/-! ## Helper lemmas -/

theorem powiStep_exp_neg (k : ℕ) (s : F64 × ℤ × F64) (h : s.2.1 < 0) :
    ((powiStep^[k]) s).2.1 < 0 := by
  induction k generalizing s with
  | zero => exact h
  | succ k ih =>
    rw [Function.iterate_succ_apply]
    exact ih (powiStep s) (Int.ediv_neg' h (by norm_num))

theorem powiStep_exp_toNat (k : ℕ) (s : F64 × ℤ × F64) (h : 0 ≤ s.2.1) :
    ((powiStep^[k]) s).2.1 = ((s.2.1.toNat / 2^k : ℕ) : ℤ) := by
  induction k generalizing s with
  | zero => simp [Int.toNat_of_nonneg h]
  | succ k ih =>
    rw [Function.iterate_succ_apply,
      ih (powiStep s) (Int.ediv_nonneg h (by norm_num))]
    have h2 : (powiStep s).2.1 = s.2.1 / 2 := rfl
    have h3 : (powiStep s).2.1.toNat = s.2.1.toNat / 2 := by
      rw [h2]
      rw [show s.2.1 = ((s.2.1.toNat : ℕ) : ℤ) from (Int.toNat_of_nonneg h).symm]
      rfl
    rw [h3, Nat.div_div_eq_div_mul, pow_succ, Nat.mul_comm (2^k) 2]

theorem powiSimdStep_exp (k : ℕ) (s : List F64 × List ℕ × List F64) :
    ((powiSimdStep^[k]) s).2.1 = s.2.1.map (fun n => n / 2^k) := by
  induction k generalizing s with
  | zero => simp
  | succ k ih =>
    rw [Function.iterate_succ_apply, ih (powiSimdStep s)]
    have h2 : (powiSimdStep s).2.1 = s.2.1.map (fun n => n / 2) := rfl
    rw [h2, List.map_map]
    apply List.map_congr_left
    intro n _
    simp only [Function.comp_apply]
    rw [Nat.div_div_eq_div_mul, pow_succ, Nat.mul_comm (2^k) 2]

theorem powiLoopQ_eq (f : ℕ) : ∀ (n : ℕ), n < 2^f → ∀ (x acc : ℚ),
    powiLoopQ f x n acc = acc * x ^ n := by
  induction f with
  | zero =>
    intro n hn x acc
    interval_cases n
    simp [powiLoopQ]
  | succ f ih =>
    intro n hn x acc
    by_cases h0 : n = 0
    · subst h0; simp [powiLoopQ]
    · have hstep : powiLoopQ (f+1) x n acc
          = powiLoopQ f (x*x) (n/2) (if n % 2 = 1 then acc * x else acc) := by
        simp only [powiLoopQ, if_neg h0]
      have hdiv : n / 2 < 2^f := by
        have : n < 2^f * 2 := by rw [← pow_succ]; exact hn
        omega
      rw [hstep, ih (n/2) hdiv]
      have hmod : 2 * (n / 2) + n % 2 = n := Nat.div_add_mod n 2
      have hxx : (x*x) ^ (n/2) = x ^ (2 * (n/2)) := by
        rw [two_mul, pow_add]
        exact mul_pow x x (n/2)
      rcases Nat.mod_two_eq_zero_or_one n with hp | hp
      · have hif : (if n % 2 = 1 then acc * x else acc) = acc := by
          rw [hp]; norm_num
        rw [hif, hxx, show 2 * (n/2) = n from by omega]
      · have hif : (if n % 2 = 1 then acc * x else acc) = acc * x := by
          rw [hp]; norm_num
        have hpow : x ^ n = x ^ (2 * (n/2)) * x := by
          conv_lhs => rw [show n = 2 * (n/2) + 1 from by omega]
          rw [pow_add, pow_one]
        rw [hif, hxx, hpow]
        ring

/-! ## Helper lemmas -/

theorem toIntUnchecked_range (y : F64) (t : ℤ) (h : toIntUnchecked y = some t) :
    -(2^31) ≤ t ∧ t ≤ 2^31 - 1 := by
  cases y with
  | nan => simp [toIntUnchecked] at h
  | inf b => simp [toIntUnchecked] at h
  | fin b m e =>
    simp only [toIntUnchecked] at h
    split at h
    all_goals split at h
    all_goals simp_all
    all_goals omega

theorem blenF_zero (f : ℕ) : blenF f 0 = 0 := by
  cases f with
  | zero => rfl
  | succ f => simp [blenF]

theorem blenF_spec (f : ℕ) : ∀ n : ℕ, 0 < n → n ≤ f →
    2^(blenF f n - 1) ≤ n ∧ n < 2^(blenF f n) := by
  induction f with
  | zero => intro n h1 h2; omega
  | succ f ih =>
    intro n h1 h2
    have hne : n ≠ 0 := h1.ne'
    rw [blenF, if_neg hne]
    by_cases hone : n = 1
    · subst hone
      simp [blenF_zero]
    · have hge2 : 2 ≤ n := by omega
      have hdpos : 0 < n / 2 := Nat.div_pos (by omega) (by omega)
      have hdle : n / 2 ≤ f := by omega
      obtain ⟨ihl, ihr⟩ := ih (n / 2) hdpos hdle
      set b := blenF f (n / 2) with hb
      have hb1 : 1 ≤ b := by
        by_contra hc
        have : b = 0 := by omega
        rw [this] at ihr
        omega
      have hpow : 2^b = 2^(b-1) * 2 := by
        conv_lhs => rw [show b = (b-1) + 1 from by omega]
        rw [pow_succ]
      have hpow2 : 2^(b+1) = 2^b * 2 := by rw [pow_succ]
      constructor
      · have : 2^(b+1-1) = 2^b := by norm_num
        rw [this]
        omega
      · omega

theorem blen_spec (n : ℕ) (h : 0 < n) :
    2^(blen n - 1) ≤ n ∧ n < 2^(blen n) :=
  blenF_spec n n h (le_refl n)

theorem blen_eq_of_bounds (k m : ℕ) (h1 : 2^k ≤ m) (h2 : m < 2^(k+1)) :
    blen m = k + 1 := by
  have hm : 0 < m := lt_of_lt_of_le (Nat.pos_pow_of_pos k (by norm_num)) h1
  obtain ⟨hl, hr⟩ := blen_spec m hm
  set b := blen m with hb
  rcases lt_trichotomy b (k+1) with hc | hc | hc
  · exfalso
    have : 2^b ≤ 2^k := Nat.pow_le_pow_right (by norm_num) (by omega)
    omega
  · exact hc
  · exfalso
    have : 2^(k+1) ≤ 2^(b-1) := Nat.pow_le_pow_right (by norm_num) (by omega)
    omega

theorem stripF_val (f : ℕ) : ∀ (m : ℕ) (e : ℤ), 0 < m →
    0 < (stripF f m e).1
    ∧ ((stripF f m e).1 : ℚ) * 2^((stripF f m e).2) = (m:ℚ) * 2^e := by
  induction f with
  | zero => intro m e hm; exact ⟨hm, rfl⟩
  | succ f ih =>
    intro m e hm
    by_cases hc : m % 2 = 0 ∧ m ≠ 0
    · obtain ⟨k, hk⟩ : ∃ k, m = 2 * k := ⟨m/2, by omega⟩
      subst hk
      have hs : stripF (f+1) (2*k) e = stripF f k (e+1) := by
        rw [stripF, if_pos hc, show 2*k/2 = k from by omega]
      have hkpos : 0 < k := by omega
      obtain ⟨ih1, ih2⟩ := ih k (e+1) hkpos
      rw [hs]
      refine ⟨ih1, ?_⟩
      rw [ih2, zpow_add₀ (two_ne_zero) e 1]
      push_cast
      ring
    · rw [stripF, if_neg hc]
      exact ⟨hm, rfl⟩

theorem canonF_val (s : Bool) (m : ℕ) (e : ℤ) (hm : 0 < m) :
    valF (canonF s m e) = valF (.fin s m e) := by
  rw [canonF, if_neg hm.ne']
  obtain ⟨h1, h2⟩ := stripF_val m m e hm
  simp only [valF]
  rw [mul_assoc, mul_assoc, h2]

theorem blen_pos (m : ℕ) (h : 0 < m) : 1 ≤ blen m := by
  obtain ⟨_, hr⟩ := blen_spec m h
  by_contra hc
  have hz : blen m = 0 := by omega
  rw [hz] at hr
  omega

theorem ilogRatio_mantissa (m : ℕ) (h0 : 0 < m) :
    ilogRatio m (2^(blen m)) = -1 := by
  obtain ⟨hl, hr⟩ := blen_spec m h0
  have hb1 : 1 ≤ blen m := blen_pos m h0
  have hb2 : blen (2^(blen m)) = blen m + 1 :=
    blen_eq_of_bounds (blen m) (2^(blen m)) (le_refl _)
      (Nat.pow_lt_pow_right (by norm_num) (by omega))
  have h2b : 2^(blen m) = 2^(blen m - 1) * 2 := by
    conv_lhs => rw [show blen m = (blen m - 1) + 1 from by omega]
    rw [pow_succ]
  have hl0 : ((blen m : ℕ) : ℤ) - ((blen m + 1 : ℕ) : ℤ) = -1 := by
    push_cast
    ring
  simp only [ilogRatio, hb2]
  rw [hl0]
  rw [show ((-1:ℤ)).toNat = 0 from rfl, show ((-(-1):ℤ)).toNat = 1 from rfl]
  rw [if_pos (by omega : 2^(blen m) * 2^(0:ℕ) ≤ m * 2^(1:ℕ))]

theorem roundRatio_mantissa_val (m : ℕ) (h0 : 0 < m) (h53 : m < 2^53) :
    valF (roundRatio false m (2^(blen m))) = (m:ℚ) * 2^(-(blen m : ℤ)) := by
  obtain ⟨hl, hr⟩ := blen_spec m h0
  have hb1 : 1 ≤ blen m := blen_pos m h0
  have hb53 : blen m ≤ 53 := by
    by_contra hc
    have h54 : 54 ≤ blen m := by omega
    have : 2^53 ≤ 2^(blen m - 1) := Nat.pow_le_pow_right (by norm_num) (by omega)
    omega
  have hL := ilogRatio_mantissa m h0
  simp only [roundRatio, hL]
  rw [show (max (-1 - 52 : ℤ) (-1074)) = -53 from by norm_num]
  rw [show ((-53:ℤ)).toNat = 0 from rfl, show ((- -53 : ℤ)).toNat = 53 from rfl]
  have hN : m * 2^53 = (m * 2^(53 - blen m)) * 2^(blen m) := by
    rw [mul_assoc, ← pow_add, show 53 - blen m + blen m = 53 from by omega]
  have hrne : rneRatio (m * 2^53) (2^(blen m) * 2^0) = m * 2^(53 - blen m) := by
    rw [pow_zero, mul_one, hN]
    simp only [rneRatio,
      Nat.mul_div_cancel _ (by positivity : 0 < (2:ℕ)^(blen m)),
      Nat.mul_mod_left]
    norm_num
  rw [hrne]
  have hbig : m * 2^(53 - blen m) < 2^53 := by
    have h1 : m * 2^(53 - blen m) < 2^(blen m) * 2^(53 - blen m) :=
      (Nat.mul_lt_mul_right (by positivity : 0 < (2:ℕ)^(53 - blen m))).mpr hr
    have h2 : 2^(blen m) * 2^(53 - blen m) = 2^53 := by
      rw [← pow_add, show blen m + (53 - blen m) = 53 from by omega]
    omega
  rw [if_neg (by
    rw [pow_zero, mul_one]
    intro hcon
    have : (2:ℕ)^53 ≤ 2^(1024 + 53) := Nat.pow_le_pow_right (by norm_num) (by omega)
    omega)]
  rw [canonF_val false _ (-53) (by positivity)]
  simp only [valF, Bool.false_eq_true, if_neg (by simp : ¬False), one_mul]
  push_cast
  rw [mul_assoc]
  congr 1
  rw [← zpow_natCast (2:ℚ) (53 - blen m), ← zpow_add₀ (two_ne_zero)]
  congr 1
  have : ((53 - blen m : ℕ) : ℤ) = 53 - (blen m : ℤ) := by
    push_cast [Nat.cast_sub hb53]
    ring
  rw [this]
  ring

theorem clamp_arg_eq (a x : F64) :
    addF (divF x a) (copysignF halfF x)
      = addF (divF x a) (mulF halfF (signumF x)) := by
  have h2 : copysignF halfF x = mulF halfF (signumF x) ∨ x = F64.nan := by
    cases x with
    | nan => right; rfl
    | inf b =>
      left
      show (F64.fin b 1 (-1)) = mulF halfF (F64.fin b 1 0)
      cases b <;> decide
    | fin b m e =>
      left
      show (F64.fin b 1 (-1)) = mulF halfF (F64.fin b 1 0)
      cases b <;> decide
  rcases h2 with h | h
  · rw [h]
  · subst h
    cases a <;> rfl

theorem seqO_some {α : Type} : ∀ (l : List (Option α)) (ys : List α),
    seqO l = some ys → ys.length = l.length
      ∧ ∀ i (h1 : i < l.length) (h2 : i < ys.length), l[i] = some ys[i] := by
  intro l
  induction l with
  | nil =>
    intro ys h
    obtain rfl : ([] : List α) = ys := Option.some.inj h
    exact ⟨rfl, fun i h1 _ => absurd h1 (by simp)⟩
  | cons o rest ih =>
    intro ys h
    cases o with
    | none => exact absurd h (by simp [seqO])
    | some a =>
      rw [seqO] at h
      cases hr : seqO rest with
      | none => rw [hr] at h; exact absurd h (by simp)
      | some l2 =>
        rw [hr] at h
        obtain rfl : a :: l2 = ys := Option.some.inj h
        obtain ⟨ihl, ihg⟩ := ih l2 hr
        refine ⟨by simp [ihl], ?_⟩
        intro i h1 h2
        cases i with
        | zero => rfl
        | succ j =>
          have hj1 : j < rest.length := by simp at h1; omega
          have hj2 : j < l2.length := by simp at h2; omega
          simpa using ihg j hj1 hj2

theorem zipWith_map_right (xs : List F64) (g : F64 → F64) (c : F64) :
    List.zipWith (fun x acc => fmaF x acc c) xs (xs.map g)
      = xs.map (fun x => fmaF x (g x) c) := by
  induction xs with
  | nil => rfl
  | cons y ys ih => simp [ih]

theorem polyval_fold (rest : List F64) : ∀ (g : F64 → F64) (xs : List F64),
    rest.foldl (fun accs c2 => List.zipWith (fun x acc => fmaF x acc c2) xs accs)
        (xs.map g)
      = xs.map (fun x => rest.foldl (fun acc c2 => fmaF x acc c2) (g x)) := by
  induction rest with
  | nil => intro g xs; simp
  | cons c rest ih =>
    intro g xs
    simp only [List.foldl_cons]
    rw [zipWith_map_right xs g c, ih (fun x => fmaF x (g x) c) xs]

theorem polyval_simd_map (cs : List F64) (xs : List F64) :
    polyval_simd cs xs = xs.map (fun x => polyval cs x) := by
  cases cs with
  | nil => rfl
  | cons c rest =>
    simp only [polyval_simd, polyval]
    exact polyval_fold rest (fun _ => c) xs

theorem periodic_clamp_simd_lane (xs : List F64) (a : F64) (us : List F64)
    (ns : List ℤ) (h : periodic_clamp_simd xs a = some (us, ns)) :
    ns.length = xs.length ∧ us.length = xs.length
    ∧ ∀ i (hx : i < xs.length) (hu : i < us.length) (hn : i < ns.length),
        periodic_clamp xs[i] a = some (us[i], ns[i]) := by
  rw [periodic_clamp_simd] at h
  cases hs : seqO (xs.map (fun x =>
      toIntUnchecked (addF (divF x a) (copysignF halfF x)))) with
  | none => rw [hs] at h; exact absurd h (by simp)
  | some ns2 =>
    rw [hs] at h
    have hp := Option.some.inj h
    have hus : List.zipWith (fun x n => subF x (mulF (intToF n) a)) xs ns2 = us :=
      congrArg Prod.fst hp
    have hns : ns2 = ns := congrArg Prod.snd hp
    subst hns
    subst hus
    obtain ⟨hlen, hget⟩ := seqO_some _ _ hs
    rw [List.length_map] at hlen
    have hul : (List.zipWith (fun x n => subF x (mulF (intToF n) a)) xs ns2).length
        = xs.length := by
      rw [List.length_zipWith, hlen]
      exact min_self _
    refine ⟨hlen, hul, ?_⟩
    intro i hx hu hn
    have hq := hget i (by simp [hx]) hn
    rw [List.getElem_map] at hq
    rw [periodic_clamp, ← clamp_arg_eq a xs[i], hq, List.getElem_zipWith]

theorem sin_shift_simd_lane (xs ys : List F64) (h : sin_shift_simd xs = some ys) :
    ys.length = xs.length
    ∧ ∀ i (hx : i < xs.length) (hy : i < ys.length),
        sin_shift xs[i] = some ys[i] := by
  rw [sin_shift_simd] at h
  cases hc : periodic_clamp_simd xs piHalfF with
  | none => rw [hc] at h; exact absurd h (by simp)
  | some p =>
    obtain ⟨us, ns⟩ := p
    rw [hc] at h
    obtain ⟨hnl, hul, hlane⟩ := periodic_clamp_simd_lane xs piHalfF us ns hc
    have hys : List.zipWith
        (fun tl n => if Int.emod n 4 < 2 then tl else negF tl)
        (polyval_simd TAYLOR_COEFFS
          (List.zipWith (fun u n => if Int.emod n 2 = 0 then u else negF u) us ns))
        ns = ys := Option.some.inj h
    subst hys
    have hyl : (List.zipWith
        (fun tl n => if Int.emod n 4 < 2 then tl else negF tl)
        (polyval_simd TAYLOR_COEFFS
          (List.zipWith (fun u n => if Int.emod n 2 = 0 then u else negF u) us ns))
        ns).length = xs.length := by
      rw [List.length_zipWith, polyval_simd_map, List.length_map,
        List.length_zipWith, hul, hnl, min_self, min_self]
    refine ⟨hyl, ?_⟩
    intro i hx hy
    have hu : i < us.length := by omega
    have hn : i < ns.length := by omega
    have hclamp := hlane i hx hu hn
    rw [sin_shift, hclamp]
    simp only [List.getElem_zipWith, polyval_simd_map, List.getElem_map]

/-! ## Claim theorems -/

/-- Claim C1 (counterexample): the quotient chosen by `periodic_clamp` is
not always `round(x/a)` with ties away from zero.  At `x = 2^53 - 1`,
`a = 2^54` the exact quotient is `1/2 - 2^(-54)`, whose round-half-away
value is `0`, but the double rounding of `fl(x/a) + 0.5` crosses the
half-integer boundary and the code returns `n = 1`. -/
theorem periodic_clamp_not_round_half_away :
    periodic_clamp (F64.fin false 9007199254740991 0) (F64.fin false 1 54)
      = some (F64.fin true 1 53, 1)
    ∧ roundHalfAway (valF (F64.fin false 9007199254740991 0)
        / valF (F64.fin false 1 54)) = 0 := by
  constructor
  · decide
  · have hv : valF (F64.fin false 9007199254740991 0)
        / valF (F64.fin false 1 54) = 9007199254740991 / 2^54 := by
      norm_num [valF]
    rw [hv, roundHalfAway, if_neg (by norm_num)]
    rw [Int.floor_eq_zero_iff]
    constructor
    · norm_num
    · norm_num

/-- Claim C1 (amended): in exact arithmetic the algorithm of
`periodic_clamp` — truncate `x/a + 0.5·sgn(x)` toward zero — returns
exactly `n = round(x/a)` with ties away from zero in the direction of
`x`'s sign, with `|r| ≤ a/2` and `r + n·a = x`; the floating-point
implementation computes the same formula with rounded operations, which
can shift `n` across a half-integer boundary (see the counterexample). -/
theorem periodic_clamp_exact_spec (x a : ℚ) (ha : 0 < a) :
    (periodic_clampQ x a).2 = roundHalfAway (x / a)
    ∧ |(periodic_clampQ x a).1| ≤ a / 2
    ∧ (periodic_clampQ x a).1 + ((periodic_clampQ x a).2 : ℚ) * a = x := by
  have hane : a ≠ 0 := ha.ne'
  have hxa : (x / a) * a = x := div_mul_cancel₀ x hane
  by_cases hx : x < 0
  · -- negative input: signum is -1, truncation is toward zero from below
    have hq : x / a < 0 := div_neg_of_neg_of_pos hx ha
    have hsgn : sgnQ x = -1 := if_pos hx
    have harg : x / a + 1/2 * sgnQ x = x / a - 1/2 := by rw [hsgn]; ring
    have hargneg : x / a - 1/2 < 0 := by linarith
    have htr : truncQ (x / a + 1/2 * sgnQ x) = -⌊-(x/a) + 1/2⌋ := by
      rw [harg, truncQ, if_pos hargneg, show -(x/a - 1/2) = -(x/a) + 1/2 by ring]
    have hrha : roundHalfAway (x / a) = -⌊-(x/a) + 1/2⌋ := by
      rw [roundHalfAway, if_pos hq]
    set m := ⌊-(x/a) + 1/2⌋ with hm
    have h1 : (m : ℚ) ≤ -(x/a) + 1/2 := Int.floor_le _
    have h2 : -(x/a) + 1/2 < m + 1 := Int.lt_floor_add_one _
    refine ⟨by rw [periodic_clampQ, htr, hrha], ?_, ?_⟩
    · show |x - ((truncQ (x / a + 1/2 * sgnQ x) : ℤ) : ℚ) * a| ≤ a / 2
      rw [htr]
      push_cast
      have hval : x - (-(m:ℚ)) * a = (x/a + m) * a := by
        field_simp
      rw [hval, abs_mul, abs_of_pos ha]
      have hb : |x/a + (m:ℚ)| ≤ 1/2 := by
        rw [abs_le]
        constructor <;> nlinarith
      nlinarith [abs_nonneg (x/a + (m:ℚ))]
    · show x - ((truncQ (x / a + 1/2 * sgnQ x) : ℤ) : ℚ) * a
          + ((truncQ (x / a + 1/2 * sgnQ x) : ℤ) : ℚ) * a = x
      ring
  · -- nonnegative input: signum is +1, truncation is the floor
    have hq : 0 ≤ x / a := div_nonneg (le_of_not_lt hx) ha.le
    have hsgn : sgnQ x = 1 := if_neg hx
    have harg : x / a + 1/2 * sgnQ x = x / a + 1/2 := by rw [hsgn]; ring
    have hargpos : ¬(x / a + 1/2 < 0) := by push_neg; linarith
    have htr : truncQ (x / a + 1/2 * sgnQ x) = ⌊x/a + 1/2⌋ := by
      rw [harg, truncQ, if_neg hargpos]
    have hrha : roundHalfAway (x / a) = ⌊x/a + 1/2⌋ := by
      rw [roundHalfAway, if_neg (not_lt.mpr hq)]
    set m := ⌊x/a + 1/2⌋ with hm
    have h1 : (m : ℚ) ≤ x/a + 1/2 := Int.floor_le _
    have h2 : x/a + 1/2 < m + 1 := Int.lt_floor_add_one _
    refine ⟨by rw [periodic_clampQ, htr, hrha], ?_, ?_⟩
    · show |x - ((truncQ (x / a + 1/2 * sgnQ x) : ℤ) : ℚ) * a| ≤ a / 2
      rw [htr]
      have hval : x - (m:ℚ) * a = (x/a - m) * a := by
        field_simp
        ring
      rw [hval, abs_mul, abs_of_pos ha]
      have hb : |x/a - (m:ℚ)| ≤ 1/2 := by
        rw [abs_le]
        constructor <;> nlinarith
      nlinarith [abs_nonneg (x/a - (m:ℚ))]
    · show x - ((truncQ (x / a + 1/2 * sgnQ x) : ℤ) : ℚ) * a
          + ((truncQ (x / a + 1/2 * sgnQ x) : ℤ) : ℚ) * a = x
      ring

/-- Claim C1 (witness): the exact-arithmetic specification instantiated
at `x = 7`, `a = 2` (a tie, resolved away from zero: `n = 4`). -/
theorem periodic_clamp_exact_spec_witness :
    (0:ℚ) < 2
    ∧ ((periodic_clampQ 7 2).2 = roundHalfAway (7 / 2)
      ∧ |(periodic_clampQ 7 2).1| ≤ 2 / 2
      ∧ (periodic_clampQ 7 2).1 + ((periodic_clampQ 7 2).2 : ℚ) * 2 = 7) :=
  ⟨two_pos, periodic_clamp_exact_spec 7 2 two_pos⟩

/-- Claim C2: each lane of `sin_simd` (built on `sin_shift_simd`) equals
the scalar `sin` (built on `sin_shift`) applied to that lane's value in
isolation — in fact bit-for-bit, which is within any accuracy tolerance;
this holds for every lane width (the lane list is arbitrary), whenever
the lane-parallel computation is defined. -/
theorem sin_simd_lane_eq_sin (xs ys : List F64) (h : sin_simd xs = some ys) :
    ys.length = xs.length
    ∧ ∀ i (hx : i < xs.length) (hy : i < ys.length),
        sin xs[i] = some ys[i] := by
  rw [sin_simd] at h
  obtain ⟨hl, hlane⟩ := sin_shift_simd_lane _ _ h
  rw [List.length_map] at hl
  refine ⟨hl, ?_⟩
  intro i hx hy
  have hh := hlane i (by simp [hx]) (by omega)
  rw [List.getElem_map] at hh
  exact hh

/-- Claim C2 (witness): the one-lane vector `[1.0]`; the lane-parallel
result and the scalar result are the identical double
`7579296827247855 * 2^(-53)`. -/
theorem sin_simd_lane_eq_sin_witness :
    sin_simd [oneF] = some [F64.fin false 7579296827247855 (-53)]
    ∧ sin oneF = some (F64.fin false 7579296827247855 (-53)) := by
  have h1 : sin_simd [oneF] = some [F64.fin false 7579296827247855 (-53)] := by
    decide
  refine ⟨h1, ?_⟩
  have h2 := (sin_simd_lane_eq_sin [oneF]
    [F64.fin false 7579296827247855 (-53)] h1).2
  have h3 := h2 0 (by simp) (by simp)
  simpa using h3

/-- Claim C3 (counterexample): an input whose quotient does not fit in a
signed 32-bit integer produces no defined outcome at all — the unchecked
conversion's precondition is violated (undefined behavior, modelled as
`none`) — rather than a saturated value or an explicit domain error. -/
theorem periodic_clamp_overflow_no_result :
    periodic_clamp (F64.fin false 1 40) oneF = none
    ∧ (2:ℚ)^31 - 1 < valF (F64.fin false 1 40) / valF oneF := by
  constructor
  · decide
  · norm_num [valF, oneF]

/-- Claim C3 (amended): `periodic_clamp` has a defined result exactly when
the unchecked float-to-int conversion of the rounded quotient is defined,
i.e. when the truncated quotient lies in `i32` range; in that case `n` is
that quotient and `r = fl(x - fl(n * a))`; outside that range the
behavior is undefined (no saturation, no error signal). -/
theorem periodic_clamp_defined_iff_quotient_in_i32 : ∀ x a : F64,
    (∀ r n, periodic_clamp x a = some (r, n) →
      toIntUnchecked (addF (divF x a) (mulF halfF (signumF x))) = some n
      ∧ -(2^31) ≤ n ∧ n ≤ 2^31 - 1
      ∧ r = subF x (mulF (intToF n) a))
    ∧ (periodic_clamp x a = none ↔
        toIntUnchecked (addF (divF x a) (mulF halfF (signumF x))) = none) := by
  intro x a
  cases h : toIntUnchecked (addF (divF x a) (mulF halfF (signumF x))) with
  | none =>
    refine ⟨?_, ?_⟩
    · intro r n heq
      rw [periodic_clamp, h] at heq
      exact absurd heq (by simp)
    · simp [periodic_clamp, h]
  | some t =>
    refine ⟨?_, ?_⟩
    · intro r n heq
      rw [periodic_clamp, h] at heq
      have hp := Option.some.inj heq
      have h1 : subF x (mulF (intToF t) a) = r := congrArg Prod.fst hp
      have h2 : t = n := congrArg Prod.snd hp
      subst h2
      obtain ⟨hr1, hr2⟩ := toIntUnchecked_range _ _ h
      exact ⟨rfl, hr1, hr2, h1.symm⟩
    · simp [periodic_clamp, h]

/-- Claim C3 (witness): at `x = a = 1` the quotient rounds to `1`, which
is in `i32` range, and the theorem yields the decomposition. -/
theorem periodic_clamp_defined_iff_quotient_in_i32_witness :
    toIntUnchecked (addF (divF oneF oneF) (mulF halfF (signumF oneF))) = some 1
    ∧ -(2^31) ≤ (1:ℤ) ∧ (1:ℤ) ≤ 2^31 - 1
    ∧ (F64.fin false 0 0) = subF oneF (mulF (intToF 1) oneF) :=
  (periodic_clamp_defined_iff_quotient_in_i32 oneF oneF).1
    (F64.fin false 0 0) 1 (by decide)

/-- Claim C4: the claim says `powi` terminates for every `i32` exponent.
The code is wrong at `n = i32::MIN = -2^31`: `n.abs()` wraps back to
`-2^31` (it panics under debug overflow checks), and the `>>= 1`
arithmetic shift keeps the exponent negative forever, so the loop guard
`n != 0` never fails and the scalar loop never terminates (first two
conjuncts).  For every other `i32` exponent the loop reaches zero within
31 iterations (third conjunct), and the lane-parallel `powi_simd` always
terminates because exponents are cast to `u64` and shifted logically,
reaching all-zero within 64 iterations (fourth conjunct). -/
theorem powi_i32_min_loop_never_exits :
    powi twoF (-(2^31)) = none
    ∧ (∀ k : ℕ, ((powiStep^[k]) (twoF, absWrap (-(2^31)), oneF)).2.1 ≠ 0)
    ∧ (∀ (x acc : F64) (n : ℤ), 0 ≤ n → n < 2^31 →
        ((powiStep^[31]) (x, n, acc)).2.1 = 0)
    ∧ (∀ (xs accs : List F64) (ns : List ℕ), (∀ m ∈ ns, m < 2^64) →
        ∀ m ∈ ((powiSimdStep^[64]) (xs, ns, accs)).2.1, m = 0) := by
  refine ⟨by decide, ?_, ?_, ?_⟩
  · intro k
    have hneg : (twoF, absWrap (-(2^31)), oneF).2.1 < 0 := by decide
    exact ne_of_lt (powiStep_exp_neg k _ hneg)
  · intro x acc n h0 h31
    rw [powiStep_exp_toNat 31 (x, n, acc) h0]
    have ht : (x, n, acc).2.1.toNat < 2^31 := (Int.toNat_lt h0).mpr h31
    rw [Nat.div_eq_of_lt ht]
    rfl
  · intro xs accs ns h m hm
    rw [powiSimdStep_exp] at hm
    obtain ⟨n0, hn0, rfl⟩ := List.mem_map.mp hm
    exact Nat.div_eq_of_lt (h n0 hn0)

/-- Claim C4 (witness): the terminating conjuncts instantiated at
exponent `5` (scalar) and lane vector `[3]` (simd). -/
theorem powi_i32_min_loop_never_exits_witness :
    ((0:ℤ) ≤ 5 ∧ (5:ℤ) < 2^31
      ∧ ((powiStep^[31]) (oneF, 5, oneF)).2.1 = 0)
    ∧ ((3:ℕ) < 2^64
      ∧ ∀ m ∈ ((powiSimdStep^[64]) ([oneF], [3], [oneF])).2.1, m = 0) :=
  ⟨⟨by decide, by decide,
    powi_i32_min_loop_never_exits.2.2.1 oneF oneF 5 (by decide) (by decide)⟩,
   ⟨by decide, powi_i32_min_loop_never_exits.2.2.2 [oneF] [oneF] [3]
      (by intro m hm; simp at hm; omega)⟩⟩

/-- Claim C5 (counterexample): `powi(3, -5)` and `1 / powi(3, 5)` differ
in the last ulp: the former squares the rounded reciprocal `fl(1/3)`,
the latter divides by the exact `243`. -/
theorem powi_neg_not_reciprocal :
    powi (F64.fin false 3 0) 5 = some (F64.fin false 243 0)
    ∧ powi (F64.fin false 3 0) (-5)
        = some (F64.fin false 4744532940768917 (-60))
    ∧ divF oneF (F64.fin false 243 0) = F64.fin false 2372266470384459 (-59)
    ∧ (F64.fin false 4744532940768917 (-60) : F64)
        ≠ F64.fin false 2372266470384459 (-59) :=
  ⟨by decide, by decide, by decide, by decide⟩

/-- Claim C5 (amended): `powi(x, 0) = 1` exactly for every input (the
squaring loop is skipped), and in exact arithmetic the negative-exponent
path satisfies `powi(x, -n) = 1 / powi(x, n)` for nonzero `x` and
positive `i32` `n`; in floating point the two sides can differ in the
final ulp (see the counterexample). -/
theorem powi_zero_and_exact_reciprocal :
    (∀ x : F64, powi x 0 = some oneF)
    ∧ (∀ x : ℚ, x ≠ 0 → ∀ n : ℕ, 0 < n → n < 2^31 →
        powiQ x (-(n:ℤ)) = 1 / powiQ x (n:ℤ)) := by
  constructor
  · intro x
    rfl
  · intro x hx n hn h31
    have h64 : n < 2^64 := lt_trans h31 (by norm_num)
    rw [powiQ, powiQ]
    rw [if_pos (by omega : (-(n:ℤ)) < 0), if_neg (by omega : ¬((n:ℤ) < 0))]
    rw [show (-(n:ℤ)).natAbs = n by simp, show ((n:ℤ)).natAbs = n by simp]
    rw [powiLoopQ_eq 64 n h64 x⁻¹ 1, powiLoopQ_eq 64 n h64 x 1]
    rw [one_mul, one_mul, inv_pow, one_div]

/-- Claim C5 (witness): `powi(2.0, 0) = 1.0` and the exact-arithmetic
reciprocal identity at `x = 3`, `n = 2`. -/
theorem powi_zero_and_exact_reciprocal_witness :
    powi twoF 0 = some oneF
    ∧ powiQ 3 (-2) = 1 / powiQ 3 2 :=
  ⟨powi_zero_and_exact_reciprocal.1 twoF,
   powi_zero_and_exact_reciprocal.2 3 three_ne_zero 2 (by decide) (by decide)⟩

/-- Claim C6 (counterexample): at `x = 0.4` the coarse exponent is
`-2 < 0` and the code adjusts it to `-1` — up by one, toward zero, not
down — and the scaled mantissa `0.4 * 2^(-(-1)) = 0.8` lands below 1,
not above 1 as the claim states. -/
theorem ln_mantissa_below_one_at_two_fifths :
    dlit 4 1 = F64.fin false 3602879701896397 (-53)
    ∧ fake_log2 (dlit 4 1) = -2
    ∧ lnAdjN (dlit 4 1) = -1
    ∧ lnMant (dlit 4 1) = F64.fin false 3602879701896397 (-52)
    ∧ gtF (lnMant (dlit 4 1)) oneF = false :=
  ⟨by decide, by decide, by decide, by decide, by decide⟩
/-- Claim C6 (amended): for every positive finite double `m * 2^e` below 1
and in the normal range, `ln`'s coarse exponent (which is negative) is
adjusted up by one — toward zero, to `ilog2(x) + 1` — so that the mantissa
obtained by multiplying by `2^(-n)` lands below 1, in `[1/2, 1)`. -/
theorem ln_negative_exponent_adjust (m : ℕ) (e : ℤ)
    (h0 : 0 < m) (h53 : m < 2^53)
    (h3 : -1022 ≤ (blen m : ℤ) - 1 + e) (h4 : (blen m : ℤ) - 1 + e < 0) :
    lnAdjN (F64.fin false m e) = ((blen m : ℤ) - 1 + e) + 1
    ∧ valF (lnMant (F64.fin false m e)) = (m:ℚ) * 2^(-(blen m : ℤ))
    ∧ 1/2 ≤ (m:ℚ) * 2^(-(blen m : ℤ))
    ∧ (m:ℚ) * 2^(-(blen m : ℤ)) < 1 := by
  set E := (blen m : ℤ) - 1 + e with hE
  have hm0 : m ≠ 0 := h0.ne'
  have hfl : fake_log2 (F64.fin false m e) = E := by
    simp only [fake_log2, expField]
    rw [if_neg hm0, if_neg (by omega : ¬((blen m : ℤ) - 1 + e < -1022))]
    omega
  have hadj : lnAdjN (F64.fin false m e) = E + 1 := by
    simp only [lnAdjN, hfl]
    rw [if_pos (by omega : E < 0)]
  refine ⟨hadj, ?_, ?_, ?_⟩
  · rw [lnMant, hadj]
    have htp : two_powi (-(E+1)) = F64.fin false 1 (-(E+1)) := by
      rw [two_powi, if_neg (by omega), if_neg (by omega)]
    rw [htp]
    show valF (mulF (F64.fin false m e) (F64.fin false 1 (-(E+1)))) = _
    simp only [mulF]
    rw [if_neg (by omega : ¬(m * 1 = 0))]
    have hee : e + -(E+1) = -(blen m : ℤ) := by omega
    rw [hee]
    have ht1 : ((-(blen m : ℤ))).toNat = 0 := Int.toNat_of_nonpos (by omega)
    have ht2 : (-(-(blen m : ℤ))).toNat = blen m := by
      rw [neg_neg]
      simp
    rw [ht1, ht2]
    rw [pow_zero, mul_one, mul_one]
    rw [show (false != false) = false from rfl]
    exact roundRatio_mantissa_val m h0 h53
  · have hl := (blen_spec m h0).1
    have hb1 : 1 ≤ blen m := blen_pos m h0
    rw [zpow_neg, zpow_natCast, ← div_eq_mul_inv, le_div_iff₀ (by positivity)]
    have h2b : (2:ℚ)^(blen m) = 2^(blen m - 1) * 2 := by
      rw [← pow_succ, show blen m - 1 + 1 = blen m from by omega]
    rw [h2b]
    rw [show (1:ℚ)/2 * (2^(blen m - 1) * 2) = 2^(blen m - 1) from by ring]
    exact_mod_cast hl
  · have hr := (blen_spec m h0).2
    rw [zpow_neg, zpow_natCast, ← div_eq_mul_inv, div_lt_one (by positivity)]
    exact_mod_cast hr

/-- Claim C6 (witness): the amended statement instantiated at the double
`0.4 = 3602879701896397 * 2^(-53)` (52-bit odd mantissa, `ilog2 = -2`):
the adjusted exponent is `-1` and the mantissa is `0.8 ∈ [1/2, 1)`. -/
theorem ln_negative_exponent_adjust_witness :
    ((0:ℕ) < 3602879701896397 ∧ (3602879701896397:ℕ) < 2^53
      ∧ (-1022:ℤ) ≤ (blen 3602879701896397 : ℤ) - 1 + (-53)
      ∧ (blen 3602879701896397 : ℤ) - 1 + (-53) < 0)
    ∧ (lnAdjN (F64.fin false 3602879701896397 (-53))
          = ((blen 3602879701896397 : ℤ) - 1 + (-53)) + 1
      ∧ valF (lnMant (F64.fin false 3602879701896397 (-53)))
          = ((3602879701896397:ℕ) : ℚ) * 2^(-(blen 3602879701896397 : ℤ))
      ∧ 1/2 ≤ ((3602879701896397:ℕ) : ℚ) * 2^(-(blen 3602879701896397 : ℤ))
      ∧ ((3602879701896397:ℕ) : ℚ) * 2^(-(blen 3602879701896397 : ℤ)) < 1) :=
  ⟨⟨by decide, by decide, by decide, by decide⟩,
   ln_negative_exponent_adjust 3602879701896397 (-53)
     (by decide) (by decide) (by decide) (by decide)⟩

/-- Claim C7 (counterexample): `ln(1.0)` is not exactly `0.0`. -/
theorem ln_one_ne_zero : ln oneF ≠ F64.fin false 0 0 := by decide

/-- Claim C7 (amended): `ln(1.0)` returns exactly `-2^(-55)`
(about `-2.8e-17`): zero to within one part in `2^55` — well inside the
1e-12 accuracy budget — but not exactly `0.0`. -/
theorem ln_one_value :
    ln oneF = F64.fin true 1 (-55)
    ∧ valF (ln oneF) = -(2^(-(55:ℤ))) := by
  have h1 : ln oneF = F64.fin true 1 (-55) := by decide
  refine ⟨h1, ?_⟩
  rw [h1]
  simp [valF]

/-- Claim C8 (counterexample): at the double nearest `π/2` (no double is
exactly an odd multiple of `π/2`), `tan` returns the large finite value
`6548361564423747 * 2^(-2) ≈ 1.637e15`, not `±infinity`. -/
theorem tan_near_half_pi_finite :
    tan piHalfF = some (F64.fin false 6548361564423747 (-2))
    ∧ (∀ b, tan piHalfF ≠ some (F64.inf b)) := by
  exact ⟨by decide, by decide⟩

/-- Claim C8 (amended): `tan(x)` is the plain IEEE division
`sin(x) / cos(x)` with no special-case guard — a division by an exactly
zero cosine would produce `±infinity` per IEEE semantics — but at the
double nearest an odd multiple of `π/2` the computed cosine is near-zero
yet nonzero, so `tan` yields a large finite value rather than
`±infinity`. -/
theorem tan_unguarded_division :
    (∀ x s c, sin x = some s → cos x = some c → tan x = some (divF s c))
    ∧ (∀ (sg : Bool) (m : ℕ) (e : ℤ), m ≠ 0 →
        divF (F64.fin sg m e) (F64.fin false 0 0) = F64.inf sg)
    ∧ cos piHalfF = some (F64.fin false 6194651716802843 (-103))
    ∧ F64.fin false 6194651716802843 (-103) ≠ F64.fin false 0 0 := by
  refine ⟨?_, ?_, by decide, by decide⟩
  · intro x s c hs hc
    rw [tan, hs, hc]
  · intro sg m e hm
    simp [divF, hm]

/-- Claim C8 (witness): the unguarded-division conjuncts instantiated at
`x = 1.0` and at a division of `1.0` by `+0.0`. -/
theorem tan_unguarded_division_witness :
    sin oneF = some (F64.fin false 7579296827247855 (-53))
    ∧ cos oneF = some (F64.fin false 1216652631687587 (-51))
    ∧ tan oneF = some (divF (F64.fin false 7579296827247855 (-53))
        (F64.fin false 1216652631687587 (-51)))
    ∧ divF (F64.fin false 1 0) (F64.fin false 0 0) = F64.inf false :=
  ⟨by decide, by decide,
   tan_unguarded_division.1 oneF (F64.fin false 7579296827247855 (-53))
     (F64.fin false 1216652631687587 (-51)) (by decide) (by decide),
   tan_unguarded_division.2.1 false 1 0 (by decide)⟩

/-- Claim C10: the scalar `atan` applied to exactly `+0.0` returns
exactly `+0.0`: the reconstruction lands exactly on `TAN_1` and the final
subtraction cancels to zero, whose sign-copy with `+0` is `+0.0`. -/
theorem atan_zero_eq_zero : atan (F64.fin false 0 0) = F64.fin false 0 0 := by decide

/-- Claim C9: for every `y`, `atan2(y, 0)` returns `+π/2` when `y > 0`,
`-π/2` when `y < 0`, and NaN when `y = 0` (the `0,0` case is NaN, not 0).
The `atan2` body is absent from src/, so `atan2` here is modelled from
§4.7 of the spec. -/
theorem atan2_zero_x_cases : ∀ y : F64,
    (gtF y (F64.fin false 0 0) = true → atan2 y (F64.fin false 0 0) = piHalfF)
    ∧ (gtF (F64.fin false 0 0) y = true →
        atan2 y (F64.fin false 0 0) = negF piHalfF)
    ∧ (isZeroF y = true → atan2 y (F64.fin false 0 0) = F64.nan) := by
  intro y
  have hz : isZeroF (F64.fin false 0 0) = true := rfl
  refine ⟨?_, ?_, ?_⟩
  · intro hy
    rw [atan2, if_pos hz, if_pos hy]
  · intro hy
    have hyn : gtF y (F64.fin false 0 0) = false := by
      cases y with
      | nan => rfl
      | inf b =>
        cases b with
        | false => exact absurd hy (by decide)
        | true => rfl
      | fin b m e =>
        cases b with
        | false =>
          exfalso
          have : magGt 0 0 m e = true := hy
          simp [magGt] at this
        | true => rfl
    rw [atan2, if_pos hz, if_neg (by rw [hyn]; exact Bool.false_ne_true),
      if_pos hy]
  · intro hy
    cases y with
    | nan => exact absurd hy (by decide)
    | inf b => exact absurd hy (by simp [isZeroF])
    | fin b m e =>
      have hm : m = 0 := by simpa [isZeroF] using hy
      subst hm
      have h1 : gtF (F64.fin b 0 e) (F64.fin false 0 0) = false := by
        cases b with
        | false => simp [gtF, magGt]
        | true => rfl
      have h2 : gtF (F64.fin false 0 0) (F64.fin b 0 e) = false := by
        cases b with
        | false => simp [gtF, magGt]
        | true => simp [gtF]
      rw [atan2, if_pos hz, if_neg (by rw [h1]; exact Bool.false_ne_true),
        if_neg (by rw [h2]; exact Bool.false_ne_true)]

/-- Claim C9 (witness): the three cases instantiated at `y = 1.0`,
`y = -1.0` and `y = +0.0`. -/
theorem atan2_zero_x_cases_witness :
    atan2 oneF (F64.fin false 0 0) = piHalfF
    ∧ atan2 negOneF (F64.fin false 0 0) = negF piHalfF
    ∧ atan2 (F64.fin false 0 0) (F64.fin false 0 0) = F64.nan :=
  ⟨(atan2_zero_x_cases oneF).1 (by decide),
   (atan2_zero_x_cases negOneF).2.1 (by decide),
   (atan2_zero_x_cases (F64.fin false 0 0)).2.2 (by decide)⟩
